import Mathlib

/-!
Shallow embedding of the elastic host-discovery and worker-orchestration
engine of `horovod/ray/elastic.py` (classes `RayHostDiscovery` and
`ElasticRayExecutor`), together with theorems settling the specification
claims about it.

Modelling conventions:
* Ray resource quantities (floats in the source) are rationals.
* Python dicts keyed by hostname are association lists with
  overwrite-on-assignment semantics (`dictInsert`).
* The asynchronous ping round trips of `ping_actors` are summarised by an
  oracle `outcome : String → PingOutcome` saying, for each registered host,
  whether its ping became ready within the sweep window with a successful
  result (`ok`), became ready with an exception (`err`), or never became
  ready within the window (`timedOut`).
* Wall-clock timestamps (`time.time()` floats) are rationals.
-/

namespace RayElastic

/-- Advertised resource quantities of one Ray node (`node["Resources"]`). -/
structure Resources where
  cpu : ℚ
  gpu : ℚ
deriving DecidableEq

/-- One entry of `ray.nodes()`: address, liveness flag, resources. -/
structure RayNode where
  nodeManagerAddress : String
  alive : Bool
  resources : Resources
deriving DecidableEq

/-- Constructor arguments of `RayHostDiscovery`. -/
structure DiscoveryConfig where
  use_gpu : Bool
  cpus_per_slot : ℤ
  gpus_per_slot : ℤ
deriving DecidableEq

/-- Slot computation of `find_available_hosts_and_slots` for one node:
`slots = resources.get("CPU", 0) // cpus_per_slot`; in GPU mode
`slots = min(slots, resources.get("GPU", 0) // gpus_per_slot)`;
finally `slots = int(math.ceil(slots))`.  Python `//` on floats is the
floor of the true quotient. -/
def computeSlots (cfg : DiscoveryConfig) (r : Resources) : ℤ :=
  let cpuSlots : ℤ := ⌊r.cpu / (cfg.cpus_per_slot : ℚ)⌋
  let slots : ℤ :=
    if cfg.use_gpu then
      min cpuSlots ⌊r.gpu / (cfg.gpus_per_slot : ℚ)⌋
    else cpuSlots
  ⌈(slots : ℚ)⌉

/-- Python dict assignment `d[k] = v`: updates the value in place if the key
exists (keeping its position), otherwise appends the new binding. -/
def dictInsert {β : Type} (k : String) (v : β) : List (String × β) → List (String × β)
  | [] => [(k, v)]
  | (k2, v2) :: rest =>
      if k2 = k then (k, v) :: rest else (k2, v2) :: dictInsert k v rest

/-- Python dict lookup `d[k]` (as an observer on the association-list model). -/
def dictGet {β : Type} (k : String) : List (String × β) → Option β
  | [] => none
  | (k2, v) :: rest => if k2 = k then some v else dictGet k rest

/-- Result of one registered worker's ping round trip during a sweep:
the future became ready within the window and `ray.get` succeeded (`ok`),
became ready and `ray.get` raised (`err`), or never became ready within
the overall window (`timedOut`). -/
inductive PingOutcome
  | ok
  | err
  | timedOut
deriving DecidableEq

/-- Mutable state of a `RayHostDiscovery` instance: the registration map
`_actor_handles` (hostname → actor handle, actor handles modelled as
numeric identifiers) and the `_blacklist` list. -/
structure DiscoveryState where
  actorHandles : List (String × ℕ)
  blacklist : List String
deriving DecidableEq

/-- Liveness sweep `ping_actors`: every registered worker whose ping round
trip becomes ready within the window and raises has its host appended to
the blacklist and its registration popped; all other registrations
(successful pings, and pings still pending when the overall window
expires) are left untouched. -/
def ping_actors (outcome : String → PingOutcome) (st : DiscoveryState) : DiscoveryState :=
  { actorHandles := st.actorHandles.filter fun p => outcome p.1 ≠ PingOutcome.err,
    blacklist := st.blacklist ++
      ((st.actorHandles.filter fun p => outcome p.1 = PingOutcome.err).map Prod.fst) }

/-- Registration `register_actor`: `self._actor_handles[slot_info.hostname] = actor`. -/
def register_actor (actor : ℕ) (slotInfoHostname : String) (st : DiscoveryState) :
    DiscoveryState :=
  { st with actorHandles := dictInsert slotInfoHostname actor st.actorHandles }

/-- The host-mapping loop of `find_available_hosts_and_slots`: for each alive
node, skip it if blacklisted, compute its slot count, and insert it into the
mapping when the count is nonzero. -/
def buildHostMapping (cfg : DiscoveryConfig) (blacklist : List String) :
    List RayNode → List (String × ℤ) → List (String × ℤ)
  | [], m => m
  | node :: rest, m =>
      if node.nodeManagerAddress ∈ blacklist then
        buildHostMapping cfg blacklist rest m
      else
        let slots := computeSlots cfg node.resources
        if slots ≠ 0 then
          buildHostMapping cfg blacklist rest (dictInsert node.nodeManagerAddress slots m)
        else
          buildHostMapping cfg blacklist rest m

/-- Discovery query `find_available_hosts_and_slots`: filters the alive
nodes, builds the host mapping against the current blacklist, then runs the
liveness sweep `ping_actors` (which may mutate the blacklist and the
registration map), and finally returns the mapping built before the sweep
together with the post-sweep state. -/
def find_available_hosts_and_slots (cfg : DiscoveryConfig) (nodes : List RayNode)
    (outcome : String → PingOutcome) (st : DiscoveryState) :
    List (String × ℤ) × DiscoveryState :=
  let alive_nodes := nodes.filter fun k => k.alive
  let host_mapping := buildHostMapping cfg st.blacklist alive_nodes []
  let st2 := ping_actors outcome st
  (host_mapping, st2)

/-- One public operation on a `RayHostDiscovery` instance. -/
inductive DiscoveryOp
  | find (cfg : DiscoveryConfig) (nodes : List RayNode) (outcome : String → PingOutcome)
  | ping (outcome : String → PingOutcome)
  | register (actor : ℕ) (hostname : String)

/-- State transition performed by one discovery operation. -/
def applyOp (st : DiscoveryState) : DiscoveryOp → DiscoveryState
  | DiscoveryOp.find cfg nodes outcome =>
      (find_available_hosts_and_slots cfg nodes outcome st).2
  | DiscoveryOp.ping outcome => ping_actors outcome st
  | DiscoveryOp.register actor hostname => register_actor actor hostname st

/-- State after a sequence of discovery operations. -/
def applyOps (st : DiscoveryState) (ops : List DiscoveryOp) : DiscoveryState :=
  ops.foldl applyOp st

/-- Driver-level result consumed by `ElasticRayExecutor.run`: the optional
fatal `error_message` and `worker_results`, a map from process name (rank)
to the `(exit_code, timestamp)` pair recorded by that rank's worker loop. -/
structure DriverResult where
  error_message : Option String
  worker_results : List (ℕ × ℤ × ℚ)

/-- The two ways `ElasticRayExecutor.run` raises instead of returning. -/
inductive RunFailure
  | fatal (msg : String)
  | processFailure (name : ℕ) (code : ℤ)
deriving DecidableEq

/-- Comparison key of `sorted(res.worker_results.items(), key=lambda item: item[1][1])`:
the completion timestamp. -/
def tsLe (a b : ℕ × ℤ × ℚ) : Bool := a.2.2 ≤ b.2.2

/-- Comparison key of `sorted(return_values, key=lambda kv: kv[0])`: the rank. -/
def rankLe (a b : ℕ × ℤ) : Bool := a.1 ≤ b.1

/-- Result-aggregation tail of `ElasticRayExecutor.run`, after the driver has
produced `res` and the worker loops have appended `(rank, retval)` pairs to
`return_values`: raise on a fatal driver error message; otherwise scan the
worker results sorted by completion timestamp and raise naming the first
one with a nonzero exit code; otherwise return the collected return values
sorted by rank. -/
def executor_run (res : DriverResult) (return_values : List (ℕ × ℤ)) :
    Except RunFailure (List ℤ) :=
  match res.error_message with
  | some msg => Except.error (RunFailure.fatal msg)
  | none =>
      match (res.worker_results.mergeSort tsLe).find? (fun o => o.2.1 ≠ 0) with
      | some o => Except.error (RunFailure.processFailure o.1 o.2.1)
      | none => Except.ok ((return_values.mergeSort rankLe).map Prod.snd)

/-- One iteration of the poll loop in `worker_loop`: the `ray.get` on the
worker's future either returns a value (`completed v`), raises
`GetTimeoutError` (`timedOut cancelSet`, where `cancelSet` records whether
some external cancellation event was set at that moment), or raises some
other exception (`failed`). -/
inductive PollEvent
  | completed (v : ℤ)
  | timedOut (cancelSet : Bool)
  | failed
deriving DecidableEq

/-- The poll loop of `worker_loop`, driven by the trace of its successive
`ray.get` iterations, each paired with the wall-clock time `time.time()` at
which it resolved.  Returns `none` when the trace is exhausted without the
loop exiting, and otherwise `some ((exit_code, timestamp), return_results, killed)`:
a completed future appends `(rank, retval)` to `return_results` and exits
with code 0; a timeout with a cancellation event set kills the remote
worker and exits with code 1; any other exception exits with code 1; a
timeout with no cancellation event set loops again. -/
def worker_loop (rank : ℕ) : List (PollEvent × ℚ) → List (ℕ × ℤ) →
    Option ((ℤ × ℚ) × List (ℕ × ℤ) × Bool)
  | [], _ => none
  | (ev, t) :: rest, return_results =>
      match ev with
      | PollEvent.completed v => some ((0, t), return_results ++ [(rank, v)], false)
      | PollEvent.timedOut true => some ((1, t), return_results, true)
      | PollEvent.timedOut false => worker_loop rank rest return_results
      | PollEvent.failed => some ((1, t), return_results, false)

/-! Helper lemmas about the dictionary model. -/

theorem mem_keys_dictInsert {β : Type} (k key : String) (v : β) (l : List (String × β)) :
    key ∈ (dictInsert k v l).map Prod.fst ↔ key = k ∨ key ∈ l.map Prod.fst := by
  induction l with
  | nil => simp [dictInsert]
  | cons p rest ih =>
      obtain ⟨k2, v2⟩ := p
      by_cases h : k2 = k
      · subst h
        simp [dictInsert]
      · simp [dictInsert, h, ih]
        tauto

theorem mem_dictInsert {β : Type} (k : String) (v : β) (l : List (String × β)) :
    ∀ p ∈ dictInsert k v l, p = (k, v) ∨ p ∈ l := by
  induction l with
  | nil => simp [dictInsert]
  | cons q rest ih =>
      obtain ⟨k2, v2⟩ := q
      intro p hp
      by_cases h : k2 = k
      · subst h
        simp [dictInsert] at hp
        tauto
      · simp only [dictInsert, if_neg h, List.mem_cons] at hp
        rcases hp with h1 | h2
        · exact Or.inr (by simp [h1])
        · rcases ih p h2 with h3 | h4
          · exact Or.inl h3
          · exact Or.inr (List.mem_cons_of_mem _ h4)

theorem dictGet_dictInsert {β : Type} (k : String) (v : β) (l : List (String × β)) :
    dictGet k (dictInsert k v l) = some v := by
  induction l with
  | nil => simp [dictInsert, dictGet]
  | cons q rest ih =>
      obtain ⟨k2, v2⟩ := q
      by_cases h : k2 = k
      · subst h
        simp [dictInsert, dictGet]
      · simp [dictInsert, dictGet, h, ih]

/-! Helper lemmas about the host-mapping construction. -/

theorem mem_keys_buildHostMapping (cfg : DiscoveryConfig) (bl : List String)
    (nodes : List RayNode) :
    ∀ (m : List (String × ℤ)) (key : String),
      key ∈ (buildHostMapping cfg bl nodes m).map Prod.fst →
      key ∈ m.map Prod.fst ∨ key ∉ bl := by
  induction nodes with
  | nil =>
      intro m key h
      exact Or.inl (by simpa [buildHostMapping] using h)
  | cons node rest ih =>
      intro m key h
      simp only [buildHostMapping] at h
      by_cases hbl : node.nodeManagerAddress ∈ bl
      · rw [if_pos hbl] at h
        exact ih m key h
      · rw [if_neg hbl] at h
        by_cases hs : computeSlots cfg node.resources ≠ 0
        · rw [if_pos hs] at h
          rcases ih _ key h with hk | hnb
          · rcases (mem_keys_dictInsert _ key _ m).mp hk with rfl | hk2
            · exact Or.inr hbl
            · exact Or.inl hk2
          · exact Or.inr hnb
        · rw [if_neg hs] at h
          exact ih m key h

/-! Helper lemmas about the liveness sweep. -/

theorem ping_actors_err (outcome : String → PingOutcome) (st : DiscoveryState)
    (h : String) (a : ℕ) (hmem : (h, a) ∈ st.actorHandles)
    (herr : outcome h = PingOutcome.err) :
    h ∈ (ping_actors outcome st).blacklist ∧
    h ∉ (ping_actors outcome st).actorHandles.map Prod.fst := by
  constructor
  · simp only [ping_actors, List.mem_append]
    right
    exact List.mem_map.mpr ⟨(h, a), List.mem_filter.mpr ⟨hmem, by simp [herr]⟩, rfl⟩
  · intro hk
    obtain ⟨p, hp, hph⟩ := List.mem_map.mp hk
    have hfil := List.mem_filter.mp hp
    have : outcome p.1 ≠ PingOutcome.err := by simpa using hfil.2
    exact this (hph ▸ herr)

theorem ping_actors_keep (outcome : String → PingOutcome) (st : DiscoveryState)
    (h : String) (a : ℕ) (hmem : (h, a) ∈ st.actorHandles)
    (hne : outcome h ≠ PingOutcome.err) :
    (h, a) ∈ (ping_actors outcome st).actorHandles ∧
    (h ∈ (ping_actors outcome st).blacklist ↔ h ∈ st.blacklist) := by
  constructor
  · exact List.mem_filter.mpr ⟨hmem, by simp [hne]⟩
  · simp only [ping_actors, List.mem_append]
    constructor
    · rintro (hb | hb)
      · exact hb
      · exfalso
        obtain ⟨p, hp, hph⟩ := List.mem_map.mp hb
        have hfil := List.mem_filter.mp hp
        have : outcome p.1 = PingOutcome.err := by simpa using hfil.2
        exact hne (hph ▸ this)
    · exact Or.inl

theorem ping_keys_or_blacklist (outcome : String → PingOutcome) (st : DiscoveryState)
    (h : String) (hmem : h ∈ st.actorHandles.map Prod.fst) :
    h ∈ (ping_actors outcome st).actorHandles.map Prod.fst ∨
    h ∈ (ping_actors outcome st).blacklist := by
  obtain ⟨p, hp, hph⟩ := List.mem_map.mp hmem
  by_cases he : outcome p.1 = PingOutcome.err
  · right
    simp only [ping_actors, List.mem_append]
    right
    exact List.mem_map.mpr ⟨p, List.mem_filter.mpr ⟨hp, by simp [he]⟩, hph⟩
  · left
    exact List.mem_map.mpr ⟨p, List.mem_filter.mpr ⟨hp, by simp [he]⟩, hph⟩

/-! Helper lemmas about the sort orders used by the executor. -/

theorem tsLe_trans : ∀ a b c : ℕ × ℤ × ℚ,
    tsLe a b = true → tsLe b c = true → tsLe a c = true := by
  intro a b c hab hbc
  simp only [tsLe, decide_eq_true_eq] at *
  exact le_trans hab hbc

theorem tsLe_total : ∀ a b : ℕ × ℤ × ℚ, (tsLe a b || tsLe b a) = true := by
  intro a b
  simp only [tsLe, Bool.or_eq_true, decide_eq_true_eq]
  exact le_total _ _

theorem rankLe_trans : ∀ a b c : ℕ × ℤ,
    rankLe a b = true → rankLe b c = true → rankLe a c = true := by
  intro a b c hab hbc
  simp only [rankLe, decide_eq_true_eq] at *
  exact le_trans hab hbc

theorem rankLe_total : ∀ a b : ℕ × ℤ, (rankLe a b || rankLe b a) = true := by
  intro a b
  simp only [rankLe, Bool.or_eq_true, decide_eq_true_eq]
  exact le_total _ _

theorem sorted_find_min (l : List (ℕ × ℤ × ℚ)) (x : ℕ × ℤ × ℚ)
    (hsort : l.Pairwise fun a b => tsLe a b = true)
    (hdist : l.Pairwise fun a b => a.2.2 ≠ b.2.2)
    (hx : x ∈ l) (hpx : x.2.1 ≠ 0)
    (hmin : ∀ y ∈ l, y.2.1 ≠ 0 → x.2.2 ≤ y.2.2) :
    l.find? (fun o => o.2.1 ≠ 0) = some x := by
  induction l with
  | nil => cases hx
  | cons a tl ih =>
      rw [List.pairwise_cons] at hsort hdist
      by_cases ha : a.2.1 ≠ 0
      · rw [List.find?_cons_of_pos _ (by simpa using ha)]
        rcases List.mem_cons.mp hx with rfl | hxtl
        · rfl
        · exfalso
          have h1 : x.2.2 ≤ a.2.2 := hmin a (List.mem_cons_self a tl) ha
          have h2 : a.2.2 ≤ x.2.2 := by
            have := hsort.1 x hxtl
            simpa [tsLe] using this
          exact hdist.1 x hxtl (le_antisymm h2 h1)
      · rw [List.find?_cons_of_neg _ (by simpa using ha)]
        push_neg at ha
        have hxtl : x ∈ tl := by
          rcases List.mem_cons.mp hx with rfl | hxtl
          · exact absurd ha hpx
          · exact hxtl
        exact ih hsort.2 hdist.2 hxtl
          (fun y hy hyf => hmin y (List.mem_cons_of_mem _ hy) hyf)

theorem sorted_perm_nodup_eq (l1 : List (ℕ × ℤ)) :
    ∀ l2, l1.Perm l2 →
      l1.Pairwise (fun a b => rankLe a b = true) →
      l2.Pairwise (fun a b => rankLe a b = true) →
      l1.Pairwise (fun a b => a.1 ≠ b.1) → l1 = l2 := by
  induction l1 with
  | nil =>
      intro l2 hperm _ _ _
      exact hperm.nil_eq
  | cons a t1 ih =>
      intro l2 hperm h1 h2 hnd
      cases l2 with
      | nil => exact absurd hperm.symm (by simp [List.Perm.nil_eq, List.Perm])
      | cons b t2 =>
          by_cases hab : a = b
          · subst hab
            have hperm2 : t1.Perm t2 := hperm.cons_inv
            rw [List.pairwise_cons] at h1 h2 hnd
            rw [ih t2 hperm2 h1.2 h2.2 hnd.2]
          · exfalso
            have hbmem : b ∈ a :: t1 := hperm.mem_iff.mpr (List.mem_cons_self b t2)
            have hamem : a ∈ b :: t2 := hperm.mem_iff.mp (List.mem_cons_self a t1)
            have hbt1 : b ∈ t1 := by
              rcases List.mem_cons.mp hbmem with h | h
              · exact absurd h.symm hab
              · exact h
            have hat2 : a ∈ t2 := by
              rcases List.mem_cons.mp hamem with h | h
              · exact absurd h hab
              · exact h
            rw [List.pairwise_cons] at h1 h2 hnd
            have hle1 : a.1 ≤ b.1 := by
              have := h1.1 b hbt1
              simpa [rankLe] using this
            have hle2 : b.1 ≤ a.1 := by
              have := h2.1 a hat2
              simpa [rankLe] using this
            exact hnd.1 b hbt1 (le_antisymm hle1 hle2)

/-! Helper lemmas about slot counts. -/

theorem computeSlots_nonneg (cfg : DiscoveryConfig) (r : Resources)
    (hcpu : 0 ≤ r.cpu) (hgpu : 0 ≤ r.gpu) (hcps : 0 < cfg.cpus_per_slot)
    (hgps : cfg.use_gpu = true → 0 < cfg.gpus_per_slot) :
    0 ≤ computeSlots cfg r := by
  simp only [computeSlots]
  have h1 : (0 : ℤ) ≤ ⌊r.cpu / (cfg.cpus_per_slot : ℚ)⌋ := by
    apply Int.floor_nonneg.mpr
    apply div_nonneg hcpu
    exact_mod_cast hcps.le
  by_cases hg : cfg.use_gpu = true
  · have h2 : (0 : ℤ) ≤ ⌊r.gpu / (cfg.gpus_per_slot : ℚ)⌋ := by
      apply Int.floor_nonneg.mpr
      apply div_nonneg hgpu
      exact_mod_cast (hgps hg).le
    rw [if_pos hg, Int.ceil_intCast]
    exact le_min h1 h2
  · rw [if_neg hg, Int.ceil_intCast]
    exact h1

theorem buildHostMapping_values_pos (cfg : DiscoveryConfig) (bl : List String)
    (hcps : 0 < cfg.cpus_per_slot) (hgps : cfg.use_gpu = true → 0 < cfg.gpus_per_slot) :
    ∀ (nodes : List RayNode) (m : List (String × ℤ)),
      (∀ n ∈ nodes, 0 ≤ n.resources.cpu ∧ 0 ≤ n.resources.gpu) →
      (∀ p ∈ m, 0 < p.2) →
      ∀ p ∈ buildHostMapping cfg bl nodes m, 0 < p.2 := by
  intro nodes
  induction nodes with
  | nil =>
      intro m _ hm p hp
      exact hm p (by simpa [buildHostMapping] using hp)
  | cons node rest ih =>
      intro m hres hm p hp
      simp only [buildHostMapping] at hp
      by_cases hbl : node.nodeManagerAddress ∈ bl
      · rw [if_pos hbl] at hp
        exact ih m (fun n hn => hres n (List.mem_cons_of_mem _ hn)) hm p hp
      · rw [if_neg hbl] at hp
        by_cases hs : computeSlots cfg node.resources ≠ 0
        · rw [if_pos hs] at hp
          refine ih _ (fun n hn => hres n (List.mem_cons_of_mem _ hn)) ?_ p hp
          intro q hq
          rcases mem_dictInsert _ _ _ q hq with rfl | hq2
          · have hnn := computeSlots_nonneg cfg node.resources
              (hres node (List.mem_cons_self node rest)).1
              (hres node (List.mem_cons_self node rest)).2 hcps hgps
            exact lt_of_le_of_ne hnn (Ne.symm hs)
          · exact hm q hq2
        · rw [if_neg hs] at hp
          exact ih m (fun n hn => hres n (List.mem_cons_of_mem _ hn)) hm p hp

theorem length_le_sum_of_values_pos (l : List (String × ℤ))
    (h : ∀ p ∈ l, 0 < p.2) :
    (l.length : ℤ) ≤ (l.map Prod.snd).sum := by
  induction l with
  | nil => simp
  | cons p rest ih =>
      have h1 : 0 < p.2 := h p (List.mem_cons_self p rest)
      have h2 := ih fun q hq => h q (List.mem_cons_of_mem _ hq)
      simp only [List.length_cons, List.map_cons, List.sum_cons]
      push_cast
      omega

/-! Claim theorems. -/

/-- Claim C7: when the driver-level result carries a fatal error message,
`ElasticRayExecutor.run` raises an error carrying that message immediately,
whatever the per-rank worker outcomes and collected return values are (so
no per-rank outcome is inspected), and returns no results list. -/
theorem run_fatal_raises_immediately (msg : String) (wr : List (ℕ × ℤ × ℚ))
    (rv : List (ℕ × ℤ)) :
    executor_run ⟨some msg, wr⟩ rv = Except.error (RunFailure.fatal msg) := rfl

theorem blacklist_mono_op (st : DiscoveryState) (op : DiscoveryOp) (h : String)
    (hmem : h ∈ st.blacklist) : h ∈ (applyOp st op).blacklist := by
  cases op with
  | find cfg nodes outcome =>
      simp only [applyOp, find_available_hosts_and_slots, ping_actors, List.mem_append]
      exact Or.inl hmem
  | ping outcome =>
      simp only [applyOp, ping_actors, List.mem_append]
      exact Or.inl hmem
  | register actor hostname =>
      simpa [applyOp, register_actor] using hmem

/-- Claim C8: the blacklist of a `RayHostDiscovery` instance grows
monotonically: across any sequence of calls to
`find_available_hosts_and_slots`, `ping_actors` and `register_actor`, every
host present in the blacklist before the sequence is still present after
it. -/
theorem blacklist_monotone (ops : List DiscoveryOp) (st : DiscoveryState) (h : String)
    (hmem : h ∈ st.blacklist) : h ∈ (applyOps st ops).blacklist := by
  induction ops generalizing st with
  | nil => simpa [applyOps] using hmem
  | cons op rest ih =>
      have h1 := blacklist_mono_op st op h hmem
      simpa [applyOps] using ih (applyOp st op) h1

theorem blacklist_monotone_witness :
    "h9" ∈ (applyOps ⟨[("h1", 0)], ["h9"]⟩
      [DiscoveryOp.register 5 "h1",
       DiscoveryOp.ping fun _ => PingOutcome.err,
       DiscoveryOp.find ⟨false, 1, 1⟩ [] fun _ => PingOutcome.ok]).blacklist :=
  blacklist_monotone _ _ "h9" (by decide)

/-- Claim C2 counterexample: the code floor-divides before applying the
ceiling, so a host advertising 3 CPUs with cpus_per_slot = 2 yields 1 slot,
whereas dividing and rounding up to the nearest integer, as the claim
states, would yield 2. -/
theorem computeSlots_rounds_down_not_up :
    computeSlots ⟨false, 2, 1⟩ ⟨3, 0⟩ = 1 ∧ (⌈(3 : ℚ) / 2⌉ : ℤ) = 2 := by
  constructor
  · simp only [computeSlots, Bool.false_eq_true, if_false, Int.ceil_intCast]
    norm_num
  · rw [Int.ceil_eq_iff]
    norm_num

/-- Claim C2 (amended): for every node, the slot count is the advertised CPU
quantity floor-divided by cpus_per_slot (and, in GPU mode, the minimum of
that and the GPU quantity floor-divided by gpus_per_slot); the trailing
ceiling is applied to an already-integral value and is a no-op, so the
quotient is rounded down, not up.  In particular a host advertising 4 CPUs
with cpus_per_slot = 1 and GPU mode off yields 4 slots, and three such
hosts produce the mapping h1 ↦ 4, h2 ↦ 4, h3 ↦ 4. -/
theorem computeSlots_floor_spec :
    (∀ (cfg : DiscoveryConfig) (r : Resources),
      computeSlots cfg r =
        if cfg.use_gpu then
          min ⌊r.cpu / (cfg.cpus_per_slot : ℚ)⌋ ⌊r.gpu / (cfg.gpus_per_slot : ℚ)⌋
        else ⌊r.cpu / (cfg.cpus_per_slot : ℚ)⌋) ∧
    computeSlots ⟨false, 1, 1⟩ ⟨4, 0⟩ = 4 ∧
    (find_available_hosts_and_slots ⟨false, 1, 1⟩
        [⟨"h1", true, ⟨4, 0⟩⟩, ⟨"h2", true, ⟨4, 0⟩⟩, ⟨"h3", true, ⟨4, 0⟩⟩]
        (fun _ => PingOutcome.ok) ⟨[], []⟩).1 =
      [("h1", 4), ("h2", 4), ("h3", 4)] := by
  have hceil : ∀ (cfg : DiscoveryConfig) (r : Resources),
      computeSlots cfg r =
        if cfg.use_gpu then
          min ⌊r.cpu / (cfg.cpus_per_slot : ℚ)⌋ ⌊r.gpu / (cfg.gpus_per_slot : ℚ)⌋
        else ⌊r.cpu / (cfg.cpus_per_slot : ℚ)⌋ := by
    intro cfg r
    simp only [computeSlots, Int.ceil_intCast]
  have h4 : computeSlots ⟨false, 1, 1⟩ ⟨4, 0⟩ = 4 := by
    rw [hceil]
    norm_num
  refine ⟨hceil, h4, ?_⟩
  simp only [find_available_hosts_and_slots, List.filter, buildHostMapping, h4, dictInsert]
  norm_num [List.not_mem_nil, dictInsert]
  decide

/-- Claim C1 counterexample: with one alive registered host whose ping
raises during the sweep, the host is in the blacklist at the moment
`find_available_hosts_and_slots` returns and nevertheless appears as a key
of the returned mapping, because the mapping is built before the liveness
sweep mutates the blacklist. -/
theorem find_returns_freshly_blacklisted_host :
    "h1" ∈ ((find_available_hosts_and_slots ⟨false, 1, 1⟩
        [⟨"h1", true, ⟨4, 0⟩⟩] (fun _ => PingOutcome.err)
        ⟨[("h1", 0)], []⟩).2).blacklist ∧
    "h1" ∈ ((find_available_hosts_and_slots ⟨false, 1, 1⟩
        [⟨"h1", true, ⟨4, 0⟩⟩] (fun _ => PingOutcome.err)
        ⟨[("h1", 0)], []⟩).1).map Prod.fst := by
  constructor
  · simp [find_available_hosts_and_slots, ping_actors]
  · have h4 : computeSlots ⟨false, 1, 1⟩ ⟨4, 0⟩ = 4 := by
      simp only [computeSlots, Bool.false_eq_true, if_false, Int.ceil_intCast]
      norm_num
    simp [find_available_hosts_and_slots, List.filter, buildHostMapping, h4, dictInsert]

/-- Claim C1 (amended): no host that is in the blacklist at the moment the
call to `find_available_hosts_and_slots` begins (i.e. when the host mapping
is built) appears as a key of the returned mapping; hosts newly blacklisted
by the liveness sweep performed during the same call may still appear,
since the sweep runs only after the mapping has been built. -/
theorem find_excludes_prior_blacklist (cfg : DiscoveryConfig) (nodes : List RayNode)
    (outcome : String → PingOutcome) (st : DiscoveryState) (h : String)
    (hmem : h ∈ st.blacklist) :
    h ∉ ((find_available_hosts_and_slots cfg nodes outcome st).1).map Prod.fst := by
  intro hk
  simp only [find_available_hosts_and_slots] at hk
  rcases mem_keys_buildHostMapping cfg st.blacklist _ [] h hk with h1 | h2
  · simp at h1
  · exact h2 hmem

theorem find_excludes_prior_blacklist_witness :
    "h2" ∉ ((find_available_hosts_and_slots ⟨false, 1, 1⟩
        [⟨"h2", true, ⟨4, 0⟩⟩] (fun _ => PingOutcome.ok) ⟨[], ["h2"]⟩).1).map Prod.fst :=
  find_excludes_prior_blacklist _ _ _ _ "h2" (by decide)

/-- Claim C3 counterexample: a registered worker whose ping round trip never
completes within the overall window is neither blacklisted nor removed from
the registration map by `ping_actors` — the pending ping is simply
abandoned when the window expires. -/
theorem ping_timeout_not_blacklisted :
    ("h2", 0) ∈ (ping_actors (fun _ => PingOutcome.timedOut)
        ⟨[("h2", 0)], []⟩).actorHandles ∧
    "h2" ∉ (ping_actors (fun _ => PingOutcome.timedOut) ⟨[("h2", 0)], []⟩).blacklist := by
  decide

/-- Claim C3 (amended): during the liveness sweep, a registered worker whose
ping round trip becomes ready within the window and raises an exception has
its host added to the blacklist and its entry removed from the registration
map; a registered worker whose ping completes successfully keeps its
registration and its host's blacklist membership is unchanged; and —
contrary to the original claim — a registered worker whose ping never
completes within the 10-second window also keeps its registration and is
not blacklisted. -/
theorem ping_actors_outcome_spec (outcome : String → PingOutcome)
    (st : DiscoveryState) (h : String) (a : ℕ)
    (hmem : (h, a) ∈ st.actorHandles) :
    (outcome h = PingOutcome.err →
      h ∈ (ping_actors outcome st).blacklist ∧
      h ∉ (ping_actors outcome st).actorHandles.map Prod.fst) ∧
    (outcome h = PingOutcome.ok →
      (h, a) ∈ (ping_actors outcome st).actorHandles ∧
      (h ∈ (ping_actors outcome st).blacklist ↔ h ∈ st.blacklist)) ∧
    (outcome h = PingOutcome.timedOut →
      (h, a) ∈ (ping_actors outcome st).actorHandles ∧
      (h ∈ (ping_actors outcome st).blacklist ↔ h ∈ st.blacklist)) :=
  ⟨fun he => ping_actors_err outcome st h a hmem he,
   fun ho => ping_actors_keep outcome st h a hmem (by simp [ho]),
   fun ht => ping_actors_keep outcome st h a hmem (by simp [ht])⟩

theorem ping_actors_outcome_spec_witness :
    (((fun s => if s = "ha" then PingOutcome.err else PingOutcome.ok) "ha" = PingOutcome.err →
      "ha" ∈ (ping_actors (fun s => if s = "ha" then PingOutcome.err else PingOutcome.ok)
          ⟨[("ha", 1), ("hb", 2)], []⟩).blacklist ∧
      "ha" ∉ (ping_actors (fun s => if s = "ha" then PingOutcome.err else PingOutcome.ok)
          ⟨[("ha", 1), ("hb", 2)], []⟩).actorHandles.map Prod.fst) ∧
    ((fun s => if s = "ha" then PingOutcome.err else PingOutcome.ok) "ha" = PingOutcome.ok →
      ("ha", 1) ∈ (ping_actors (fun s => if s = "ha" then PingOutcome.err else PingOutcome.ok)
          ⟨[("ha", 1), ("hb", 2)], []⟩).actorHandles ∧
      ("ha" ∈ (ping_actors (fun s => if s = "ha" then PingOutcome.err else PingOutcome.ok)
          ⟨[("ha", 1), ("hb", 2)], []⟩).blacklist ↔
        "ha" ∈ (⟨[("ha", 1), ("hb", 2)], []⟩ : DiscoveryState).blacklist)) ∧
    ((fun s => if s = "ha" then PingOutcome.err else PingOutcome.ok) "ha" = PingOutcome.timedOut →
      ("ha", 1) ∈ (ping_actors (fun s => if s = "ha" then PingOutcome.err else PingOutcome.ok)
          ⟨[("ha", 1), ("hb", 2)], []⟩).actorHandles ∧
      ("ha" ∈ (ping_actors (fun s => if s = "ha" then PingOutcome.err else PingOutcome.ok)
          ⟨[("ha", 1), ("hb", 2)], []⟩).blacklist ↔
        "ha" ∈ (⟨[("ha", 1), ("hb", 2)], []⟩ : DiscoveryState).blacklist))) :=
  ping_actors_outcome_spec (fun s => if s = "ha" then PingOutcome.err else PingOutcome.ok)
    ⟨[("ha", 1), ("hb", 2)], []⟩ "ha" 1 (by decide)

/-- Claim C9 counterexample: registering a second worker for a host that
already has a registration replaces the originally recorded handle (here
handle 1) with the new one (here handle 2), rather than leaving the
original in place. -/
theorem register_actor_overwrites :
    dictGet "h1" (register_actor 2 "h1"
        (register_actor 1 "h1" ⟨[], []⟩)).actorHandles = some 2 ∧
    (some 2 : Option ℕ) ≠ some 1 := by
  decide

/-- Claim C9 (amended): `register_actor` records a host-to-handle mapping in
the registration map each time a worker is spawned, overwriting any handle
previously recorded for that host (so a second registration replaces the
original handle); and no operation removes a registration except
blacklisting of the host during the liveness sweep: after any single
operation, a previously registered host is either still a key of the
registration map or has entered the blacklist. -/
theorem register_semantics :
    (∀ (st : DiscoveryState) (actor : ℕ) (h : String),
      dictGet h (register_actor actor h st).actorHandles = some actor) ∧
    (∀ (st : DiscoveryState) (op : DiscoveryOp) (h : String),
      h ∈ st.actorHandles.map Prod.fst →
      h ∈ (applyOp st op).actorHandles.map Prod.fst ∨ h ∈ (applyOp st op).blacklist) := by
  constructor
  · intro st actor h
    exact dictGet_dictInsert h actor st.actorHandles
  · intro st op h hmem
    cases op with
    | find cfg nodes outcome =>
        simpa only [applyOp, find_available_hosts_and_slots] using
          ping_keys_or_blacklist outcome st h hmem
    | ping outcome =>
        simpa only [applyOp] using ping_keys_or_blacklist outcome st h hmem
    | register actor hostname =>
        left
        simp only [applyOp, register_actor]
        exact (mem_keys_dictInsert hostname h actor st.actorHandles).mpr (Or.inr hmem)

theorem register_semantics_witness :
    "h1" ∈ ((applyOp ⟨[("h1", 1)], []⟩
        (DiscoveryOp.ping fun _ => PingOutcome.err)).actorHandles.map Prod.fst) ∨
    "h1" ∈ (applyOp ⟨[("h1", 1)], []⟩
        (DiscoveryOp.ping fun _ => PingOutcome.err)).blacklist :=
  register_semantics.2 ⟨[("h1", 1)], []⟩ (DiscoveryOp.ping fun _ => PingOutcome.err)
    "h1" (by decide)

/-- Claim C10: every value of the mapping returned by
`find_available_hosts_and_slots` is a positive integer (a host whose
computed slot count is zero is omitted rather than included with value 0),
so the total slot count of any returned mapping is at least its number of
keys, and the logging branch guarded by the mapping being non-empty with
slot counts summing to zero is unreachable. -/
theorem find_values_positive (cfg : DiscoveryConfig) (nodes : List RayNode)
    (outcome : String → PingOutcome) (st : DiscoveryState)
    (hres : ∀ n ∈ nodes, 0 ≤ n.resources.cpu ∧ 0 ≤ n.resources.gpu)
    (hcps : 0 < cfg.cpus_per_slot)
    (hgps : cfg.use_gpu = true → 0 < cfg.gpus_per_slot) :
    (∀ p ∈ (find_available_hosts_and_slots cfg nodes outcome st).1, 0 < p.2) ∧
    (((find_available_hosts_and_slots cfg nodes outcome st).1.length : ℤ) ≤
      (((find_available_hosts_and_slots cfg nodes outcome st).1).map Prod.snd).sum) ∧
    ¬((find_available_hosts_and_slots cfg nodes outcome st).1 ≠ [] ∧
      (((find_available_hosts_and_slots cfg nodes outcome st).1).map Prod.snd).sum = 0) := by
  have hpos : ∀ p ∈ (find_available_hosts_and_slots cfg nodes outcome st).1, 0 < p.2 := by
    simp only [find_available_hosts_and_slots]
    exact buildHostMapping_values_pos cfg st.blacklist hcps hgps _ []
      (fun n hn => hres n (List.mem_of_mem_filter hn)) (by simp)
  have hlen := length_le_sum_of_values_pos _ hpos
  refine ⟨hpos, hlen, ?_⟩
  rintro ⟨hne, hsum⟩
  have hlp : 0 < (find_available_hosts_and_slots cfg nodes outcome st).1.length :=
    List.length_pos.mpr hne
  have hlp2 : (1 : ℤ) ≤ (find_available_hosts_and_slots cfg nodes outcome st).1.length := by
    exact_mod_cast hlp
  rw [hsum] at hlen
  omega

theorem find_values_positive_witness :
    (∀ p ∈ (find_available_hosts_and_slots ⟨false, 1, 1⟩ [⟨"h1", true, ⟨4, 0⟩⟩]
        (fun _ => PingOutcome.ok) ⟨[], []⟩).1, 0 < p.2) ∧
    (((find_available_hosts_and_slots ⟨false, 1, 1⟩ [⟨"h1", true, ⟨4, 0⟩⟩]
        (fun _ => PingOutcome.ok) ⟨[], []⟩).1.length : ℤ) ≤
      (((find_available_hosts_and_slots ⟨false, 1, 1⟩ [⟨"h1", true, ⟨4, 0⟩⟩]
        (fun _ => PingOutcome.ok) ⟨[], []⟩).1).map Prod.snd).sum) ∧
    ¬((find_available_hosts_and_slots ⟨false, 1, 1⟩ [⟨"h1", true, ⟨4, 0⟩⟩]
        (fun _ => PingOutcome.ok) ⟨[], []⟩).1 ≠ [] ∧
      (((find_available_hosts_and_slots ⟨false, 1, 1⟩ [⟨"h1", true, ⟨4, 0⟩⟩]
        (fun _ => PingOutcome.ok) ⟨[], []⟩).1).map Prod.snd).sum = 0) :=
  find_values_positive ⟨false, 1, 1⟩ [⟨"h1", true, ⟨4, 0⟩⟩]
    (fun _ => PingOutcome.ok) ⟨[], []⟩ (by decide) (by decide) (by decide)

/-- Claim C4: when the driver-level result carries no fatal error message,
`ElasticRayExecutor.run` scans the per-rank worker outcomes sorted by
completion timestamp and raises an error naming the rank and exit code of
the earliest-completing outcome with a nonzero exit code, returning no
results list in that case. -/
theorem run_raises_earliest_failure (wr : List (ℕ × ℤ × ℚ)) (rv : List (ℕ × ℤ))
    (x : ℕ × ℤ × ℚ)
    (hdist : wr.Pairwise fun a b => a.2.2 ≠ b.2.2)
    (hx : x ∈ wr) (hfail : x.2.1 ≠ 0)
    (hmin : ∀ y ∈ wr, y.2.1 ≠ 0 → x.2.2 ≤ y.2.2) :
    executor_run ⟨none, wr⟩ rv = Except.error (RunFailure.processFailure x.1 x.2.1) := by
  have hperm : (wr.mergeSort tsLe).Perm wr := List.mergeSort_perm wr tsLe
  have hsort : (wr.mergeSort tsLe).Pairwise fun a b => tsLe a b = true :=
    List.sorted_mergeSort tsLe_trans tsLe_total wr
  have hdist2 : (wr.mergeSort tsLe).Pairwise fun a b => a.2.2 ≠ b.2.2 :=
    (List.Perm.pairwise_iff (fun hab => hab.symm) hperm).mpr hdist
  have hfind := sorted_find_min (wr.mergeSort tsLe) x hsort hdist2
    (hperm.mem_iff.mpr hx) hfail
    fun y hy hyf => hmin y (hperm.mem_iff.mp hy) hyf
  simp only [ne_eq, decide_not] at hfind
  simp [executor_run, hfind]

theorem run_raises_earliest_failure_witness :
    executor_run ⟨none, [(0, 0, 2), (1, 0, 3), (2, 1, 1)]⟩ [] =
      Except.error (RunFailure.processFailure 2 1) :=
  run_raises_earliest_failure [(0, 0, 2), (1, 0, 3), (2, 1, 1)] [] (2, 1, 1)
    (by decide) (by decide) (by decide) (by decide)

/-- Claim C5: when every per-rank worker outcome has exit code 0,
`ElasticRayExecutor.run` returns the collected worker return values sorted
by rank — the returned list is the second components of a rank-sorted
permutation of the collected pairs — and the result does not depend on the
completion order in which those pairs were collected. -/
theorem run_returns_rank_sorted (wr : List (ℕ × ℤ × ℚ)) (rv : List (ℕ × ℤ))
    (hok : ∀ y ∈ wr, y.2.1 = 0)
    (hnd : rv.Pairwise fun a b => a.1 ≠ b.1) :
    (∃ l : List (ℕ × ℤ), executor_run ⟨none, wr⟩ rv = Except.ok (l.map Prod.snd) ∧
        l.Perm rv ∧ l.Pairwise (fun a b => rankLe a b = true)) ∧
    ∀ rv2 : List (ℕ × ℤ), rv2.Perm rv →
      executor_run ⟨none, wr⟩ rv2 = executor_run ⟨none, wr⟩ rv := by
  have hfind : (wr.mergeSort tsLe).find? (fun o => o.2.1 ≠ 0) = none := by
    rw [List.find?_eq_none]
    intro y hy
    have hywr : y ∈ wr := (List.mergeSort_perm wr tsLe).mem_iff.mp hy
    simp [hok y hywr]
  have hrun : ∀ rv0 : List (ℕ × ℤ), executor_run ⟨none, wr⟩ rv0 =
      Except.ok ((rv0.mergeSort rankLe).map Prod.snd) := by
    intro rv0
    simp only [ne_eq, decide_not] at hfind
    simp [executor_run, hfind]
  constructor
  · exact ⟨rv.mergeSort rankLe, hrun rv, List.mergeSort_perm rv rankLe,
      List.sorted_mergeSort rankLe_trans rankLe_total rv⟩
  · intro rv2 hperm2
    rw [hrun rv2, hrun rv]
    have heq : rv2.mergeSort rankLe = rv.mergeSort rankLe := by
      apply sorted_perm_nodup_eq
      · exact ((List.mergeSort_perm rv2 rankLe).trans hperm2).trans
          (List.mergeSort_perm rv rankLe).symm
      · exact List.sorted_mergeSort rankLe_trans rankLe_total rv2
      · exact List.sorted_mergeSort rankLe_trans rankLe_total rv
      · exact (List.Perm.pairwise_iff (fun hab => hab.symm)
          ((List.mergeSort_perm rv2 rankLe).trans hperm2)).mpr hnd
    rw [heq]

theorem run_returns_rank_sorted_witness :
    (∃ l : List (ℕ × ℤ), executor_run ⟨none, [(2, 0, 1), (0, 0, 2), (1, 0, 3)]⟩
        [(2, 10), (0, 20), (1, 30)] = Except.ok (l.map Prod.snd) ∧
        l.Perm [(2, 10), (0, 20), (1, 30)] ∧
        l.Pairwise (fun a b => rankLe a b = true)) ∧
    ∀ rv2 : List (ℕ × ℤ), rv2.Perm [(2, 10), (0, 20), (1, 30)] →
      executor_run ⟨none, [(2, 0, 1), (0, 0, 2), (1, 0, 3)]⟩ rv2 =
      executor_run ⟨none, [(2, 0, 1), (0, 0, 2), (1, 0, 3)]⟩ [(2, 10), (0, 20), (1, 30)] :=
  run_returns_rank_sorted [(2, 0, 1), (0, 0, 2), (1, 0, 3)] [(2, 10), (0, 20), (1, 30)]
    (by decide) (by decide)

/-- Claim C6: whenever the poll loop of `worker_loop` exits, it yields
exactly one (exit code, timestamp) pair, produced by the first terminal
iteration of its trace (all earlier iterations being timeouts with no
cancellation event set), and exactly one of three terminal outcomes
occurred: the future completed, giving exit code 0 with the return value
recorded against the worker's rank; the future timed out while a
cancellation event was set, giving exit code 1 with the worker killed and
no value recorded; or the future surfaced another exception, giving exit
code 1 with no value recorded.  A trace consisting only of timeouts with no
cancellation event set never exits the loop. -/
theorem worker_loop_terminal (rank : ℕ) (trace : List (PollEvent × ℚ))
    (return_results : List (ℕ × ℤ)) :
    (∀ out, worker_loop rank trace return_results = some out →
      ∃ pre ev t rest, trace = pre ++ (ev, t) :: rest ∧
        (∀ e ∈ pre, e.1 = PollEvent.timedOut false) ∧
        ((∃ v, ev = PollEvent.completed v ∧
            out = ((0, t), return_results ++ [(rank, v)], false)) ∨
         (ev = PollEvent.timedOut true ∧ out = ((1, t), return_results, true)) ∨
         (ev = PollEvent.failed ∧ out = ((1, t), return_results, false)))) ∧
    ((∀ e ∈ trace, e.1 = PollEvent.timedOut false) →
      worker_loop rank trace return_results = none) := by
  induction trace with
  | nil =>
      constructor
      · intro out hout
        simp [worker_loop] at hout
      · intro _
        rfl
  | cons p rest ih =>
      obtain ⟨ev, t⟩ := p
      constructor
      · intro out hout
        cases ev with
        | completed v =>
            refine ⟨[], PollEvent.completed v, t, rest, rfl, by simp, Or.inl ⟨v, rfl, ?_⟩⟩
            have : some ((0, t), return_results ++ [(rank, v)], false) = some out := by
              simpa [worker_loop] using hout
            exact (Option.some.inj this).symm
        | timedOut b =>
            cases b with
            | true =>
                refine ⟨[], PollEvent.timedOut true, t, rest, rfl, by simp,
                  Or.inr (Or.inl ⟨rfl, ?_⟩)⟩
                have : some ((1, t), return_results, true) = some out := by
                  simpa [worker_loop] using hout
                exact (Option.some.inj this).symm
            | false =>
                have hout2 : worker_loop rank rest return_results = some out := by
                  simpa [worker_loop] using hout
                obtain ⟨pre, ev2, t2, rest2, heq, hpre, hcase⟩ := ih.1 out hout2
                refine ⟨(PollEvent.timedOut false, t) :: pre, ev2, t2, rest2,
                  by simp [heq], ?_, hcase⟩
                intro e he
                rcases List.mem_cons.mp he with rfl | he2
                · rfl
                · exact hpre e he2
        | failed =>
            refine ⟨[], PollEvent.failed, t, rest, rfl, by simp,
              Or.inr (Or.inr ⟨rfl, ?_⟩)⟩
            have : some ((1, t), return_results, false) = some out := by
              simpa [worker_loop] using hout
            exact (Option.some.inj this).symm
      · intro hall
        have hev : ev = PollEvent.timedOut false := hall (ev, t) (List.mem_cons_self _ _)
        subst hev
        simpa [worker_loop] using ih.2 fun e he => hall e (List.mem_cons_of_mem _ he)

theorem worker_loop_terminal_witness :
    ∃ pre ev t rest,
      ([(PollEvent.timedOut false, 1), (PollEvent.completed 7, 2)] :
          List (PollEvent × ℚ)) = pre ++ (ev, t) :: rest ∧
      (∀ e ∈ pre, e.1 = PollEvent.timedOut false) ∧
      ((∃ v, ev = PollEvent.completed v ∧
          (((0 : ℤ), (2 : ℚ)), [((3 : ℕ), (7 : ℤ))], false) = ((0, t), [] ++ [(3, v)], false)) ∨
       (ev = PollEvent.timedOut true ∧
          (((0 : ℤ), (2 : ℚ)), [((3 : ℕ), (7 : ℤ))], false) = ((1, t), [], true)) ∨
       (ev = PollEvent.failed ∧
          (((0 : ℤ), (2 : ℚ)), [((3 : ℕ), (7 : ℤ))], false) = ((1, t), [], false))) :=
  (worker_loop_terminal 3 [(PollEvent.timedOut false, 1), (PollEvent.completed 7, 2)] []).1
    ((0, 2), [(3, 7)], false) rfl

end RayElastic
